import Mathlib

/-!
Shallow embedding of the MENACE tic-tac-toe repository
(`menace/game.py`, `menace/menace.py`, `menace/opponent.py`, `menace/train.py`).

Boards are lists of 9 characters (`'X'`, `'O'`, `' '`); permutations are
lists of 9 natural numbers; matchboxes are insertion-ordered association
lists mirroring Python `dict` / `collections.Counter`.
-/

namespace Menace

/-- `EMPTY` from `game.py`: the empty-cell marker. -/
def EMPTY : Char := ' '

/-- `TRANSFORMS` from `menace.py`: the 8 symmetry permutations, in source order
(identity, rot90, rot180, rot270, reflect-h, reflect-v, main diag, anti diag). -/
def TRANSFORMS : List (List Nat) :=
  [ [0,1,2,3,4,5,6,7,8],
    [6,3,0,7,4,1,8,5,2],
    [8,7,6,5,4,3,2,1,0],
    [2,5,8,1,4,7,0,3,6],
    [2,1,0,5,4,3,8,7,6],
    [6,7,8,3,4,5,0,1,2],
    [0,3,6,1,4,7,2,5,8],
    [8,5,2,7,4,1,6,3,0] ]

/-- `permute(board, perm)` from `menace.py`: `[board[i] for i in perm]`. -/
def permute (board : List Char) (perm : List Nat) : List Char :=
  perm.map (fun i => board.getD i EMPTY)

/-- Lexicographic strict comparison of character lists by code point, as Python
compares the serialized board strings built by `''.join(b)`. -/
def strLt : List Char → List Char → Bool
  | [], [] => false
  | [], _ :: _ => true
  | _ :: _, [] => false
  | a :: as, b :: bs =>
      if a.toNat < b.toNat then true
      else if b.toNat < a.toNat then false
      else strLt as bs

/-- The scan performed by Python `min(range(len(boards)), key=lambda i: boards[i])`:
keep the current best index and value, replacing only on strictly smaller values,
so the first index achieving the minimum wins.  Returns (best index, best value). -/
def minScan : Nat → List Char → Nat → List (List Char) → Nat × List Char
  | best, bestVal, _, [] => (best, bestVal)
  | best, bestVal, i, s :: rest =>
      bif strLt s bestVal then minScan i s (i+1) rest
      else minScan best bestVal (i+1) rest

/-- `canonicalize(board)` from `menace.py`: serialize the 8 transformed boards,
pick the lexicographically smallest (first transform wins ties), and return the
canonical string together with the permutation that produced it. -/
def canonicalize (board : List Char) : List Char × List Nat :=
  let boards := TRANSFORMS.map (fun p => permute board p)
  let mi := (minScan 0 (boards.getD 0 []) 1 (boards.drop 1)).1
  (boards.getD mi [], TRANSFORMS.getD mi [])

/-- `invert_perm(perm)` from `menace.py`: start from `[0]*9` and set
`inv[p] = i` for each `(i, p)` in `enumerate(perm)`. -/
def invert_perm (perm : List Nat) : List Nat :=
  (perm.enum).foldl (fun inv ip => inv.set ip.2 ip.1) (List.replicate 9 0)

/-- A Python `collections.Counter` restricted to what the source uses:
an insertion-ordered association list from move index to bead count. -/
abbrev Counter : Type := List (Nat × Int)

/-- Counter lookup: a missing key reads as 0, as in Python's `Counter`. -/
def cGet (c : Counter) (k : Nat) : Int :=
  match c.find? (fun p => p.1 == k) with
  | some p => p.2
  | none => 0

/-- Counter assignment: overwrite an existing key in place, else append,
mirroring Python dict insertion-order semantics. -/
def cSet (c : Counter) (k : Nat) (v : Int) : Counter :=
  if (c.find? (fun p => p.1 == k)).isSome then
    c.map (fun p => if p.1 == k then (k, v) else p)
  else
    c ++ [(k, v)]

/-- Model of the global `random` module state: a seed together with a counter
of draws made so far.  The concrete stream values are irrelevant to every
property proved here; only determinism of the stream matters. -/
structure RNG where
  seed : Nat
  ctr : Nat
deriving DecidableEq, Repr

/-- One draw from the modelled global random stream. -/
def RNG.next (g : RNG) : Nat × RNG :=
  ((g.seed * 1103515245 + g.ctr * 12345 + 12345) % 2147483648, ⟨g.seed, g.ctr + 1⟩)

/-- `random.seed(s)`: reset the global stream to a state determined by `s` alone. -/
def seedRng (s : Nat) : RNG := ⟨s, 0⟩

/-- `random.choice(xs)`: draw one element of a nonempty list using the global
stream (the empty case never arises under the callers' preconditions). -/
def randomChoice (xs : List Nat) (g : RNG) : Nat × RNG :=
  (xs.getD (g.next.1 % xs.length) 0, g.next.2)

/-- The `MENACE` agent state from `menace.py`: matchboxes keyed by canonical
string, plus the learning parameters. -/
structure MENACE where
  matchboxes : List (List Char × Counter)
  init_beads : Int
  reward_win : Int
  reward_draw : Int
  reward_loss : Int
deriving Repr

/-- `MENACE.__init__` with all defaults: empty matchboxes, `init_beads=4`,
rewards `+3`, `+1`, `-1`; seeds the global random stream with the constant 1,
discarding whatever state the stream had. -/
def MENACE.init (_g : RNG) : MENACE × RNG :=
  (⟨[], 4, 3, 1, -1⟩, seedRng 1)

/-- Matchbox lookup by canonical key (Python `can_str in self.matchboxes`). -/
def boxFind (m : List (List Char × Counter)) (k : List Char) : Option Counter :=
  match m.find? (fun p => p.1 == k) with
  | some p => some p.2
  | none => none

/-- Replace the counter stored under an existing key. -/
def boxSet (m : List (List Char × Counter)) (k : List Char) (c : Counter) :
    List (List Char × Counter) :=
  m.map (fun p => if p.1 == k then (k, c) else p)

/-- `MENACE._ensure_box(board)`: canonicalize, create the matchbox on first
sight (one entry per empty canonical cell, each `init_beads`), and return the
canonical string, the permutation, the counter, and the updated agent. -/
def MENACE.ensure_box (m : MENACE) (board : List Char) :
    List Char × List Nat × Counter × MENACE :=
  let can_str := (canonicalize board).1
  let perm := (canonicalize board).2
  match boxFind m.matchboxes can_str with
  | some beads => (can_str, perm, beads, m)
  | none =>
      let moves := (can_str.enum.filter (fun iv => iv.2 == EMPTY)).map (fun iv => iv.1)
      let beads : Counter := moves.map (fun mv => (mv, m.init_beads))
      (can_str, perm, beads, { m with matchboxes := m.matchboxes ++ [(can_str, beads)] })

/-- The weighted pool built in `choose_move`: each move repeated
`max(1, count)` times, in counter order. -/
def weightedPool (beads : Counter) : List Nat :=
  beads.foldl (fun acc p => acc ++ List.replicate (max 1 p.2).toNat p.1) []

/-- `MENACE.choose_move(board)`: ensure the matchbox, draw a weighted canonical
move from the global stream, translate it through the inverse permutation, and
return (original move, (canonical string, canonical move)) plus the updated
agent and stream. -/
def MENACE.choose_move (m : MENACE) (board : List Char) (g : RNG) :
    (Nat × (List Char × Nat)) × MENACE × RNG :=
  let eb := m.ensure_box board
  let choices := weightedPool eb.2.2.1
  let drawn := randomChoice choices g
  let inv_perm := invert_perm eb.2.1
  let chosen_orig := inv_perm.getD drawn.1 0
  ((chosen_orig, (eb.1, drawn.1)), eb.2.2.2, drawn.2)

/-- `MENACE.update(history, result)`: pick the delta from the outcome, then for
each logged (canonical string, move) whose box exists, add the delta and clamp
the counter below at 1. -/
def MENACE.update (m : MENACE) (history : List (List Char × Nat)) (result : Char) :
    MENACE :=
  let delta := if result = 'X' then m.reward_win
               else if result = 'D' then m.reward_draw
               else m.reward_loss
  history.foldl (fun m hist =>
    match boxFind m.matchboxes hist.1 with
    | none => m
    | some beads =>
        let v0 := cGet beads hist.2 + delta
        let v := if v0 < 1 then 1 else v0
        { m with matchboxes := boxSet m.matchboxes hist.1 (cSet beads hist.2 v) }) m

/-- `MENACE.inspect_box(board)`: ensure the matchbox and return the canonical
string with the counter translated back to original-board move indices. -/
def MENACE.inspect_box (m : MENACE) (board : List Char) :
    (List Char × List (Nat × Int)) × MENACE :=
  let eb := m.ensure_box board
  let inv_perm := invert_perm eb.2.1
  ((eb.1, eb.2.2.1.map (fun p => (inv_perm.getD p.1 0, p.2))), eb.2.2.2)

/-- `Board.make_move(index, symbol)` from `game.py`: place the symbol if the
cell is empty and report success, else leave the board unchanged. -/
def make_move (cells : List Char) (index : Nat) (symbol : Char) :
    Bool × List Char :=
  if cells.getD index EMPTY == EMPTY then (true, cells.set index symbol)
  else (false, cells)

/-- The 8 winning lines from `winner` in `game.py`. -/
def LINES : List (Nat × Nat × Nat) :=
  [(0,1,2),(3,4,5),(6,7,8),(0,3,6),(1,4,7),(2,5,8),(0,4,8),(2,4,6)]

/-- `winner(board)` from `game.py`: first winning line's symbol, else draw on a
full board, else no result. -/
def winner (cells : List Char) : Option Char :=
  match LINES.find? (fun l =>
      cells.getD l.1 EMPTY != EMPTY &&
      cells.getD l.1 EMPTY == cells.getD l.2.1 EMPTY &&
      cells.getD l.2.1 EMPTY == cells.getD l.2.2 EMPTY) with
  | some l => some (cells.getD l.1 EMPTY)
  | none => if cells.contains EMPTY then none else some 'D'

/-- Composition of index permutations (`permute` specialized to `Nat` entries):
`permuteN t p` maps `j` to `t[p[j]]`, so `permute b (permuteN t p) = permute (permute b t) p`. -/
def permuteN (t : List Nat) (p : List Nat) : List Nat :=
  p.map (fun i => t.getD i 0)

/-- The spec's wording of the selection inside `canonicalize`: the
lexicographically smallest of the candidate strings. -/
def lexSmallest (l : List (List Char)) : List Char :=
  match l with
  | [] => []
  | x :: xs => xs.foldl (fun a b => if strLt b a then b else a) x

/-- `canonicalize` as the spec words it: serialize the 8 transformed boards,
take the lexicographically smallest, and return it with the first transform
(in fixed list order) achieving that minimum. -/
def canonicalize_spec (board : List Char) : List Char × List Nat :=
  let images := TRANSFORMS.map (fun p => permute board p)
  let m := lexSmallest images
  (m, TRANSFORMS.getD (images.findIdx (fun s => s == m)) [])

/-- The floor invariant of the spec: every bead counter stored in every
matchbox of the agent is at least 1. -/
def beadsOK (m : MENACE) : Prop :=
  ∀ box ∈ m.matchboxes, ∀ kv ∈ box.2, (1 : Int) ≤ kv.2

/-- Boards reachable in play hold only marks and blanks. -/
def cellsOK (cells : List Char) : Prop :=
  ∀ c ∈ cells, c = 'X' ∨ c = 'O' ∨ c = ' '

/-- Outcome of the `while True` loop of `play_game_once` in `train.py`:
a normal return, the `break` on an opponent `None` (which in Python falls off
the function without a result pair), or exhaustion of the modelling fuel. -/
inductive GameOutcome where
  | finished (result : Char) (history : List (List Char × Nat))
  | broke
  | fuelOut
deriving DecidableEq, Repr

/-- The body of `play_game_once`'s loop in `train.py`, with explicit fuel: on
MENACE's turn choose, apply, log, and return on a non-`None` `winner`; on the
opponent's turn either `break` on a `None` move (Python then falls off the
function without a result) or apply the opponent's move and check.  The
`res is not None` tests are embedded with `Option.elim`. -/
def play_loop (opponent : List Char → RNG → Option Nat × RNG) :
    Nat → MENACE → RNG → List Char → Char → List (List Char × Nat) → GameOutcome
  | 0, _, _, _, _, _ => .fuelOut
  | fuel + 1, m, g, cells, turn, history =>
      if turn = 'X' then
        let cm := m.choose_move cells g
        let cells' := (make_move cells cm.1.1 'X').2
        let history' := history ++ [cm.1.2]
        (winner cells').elim
          (play_loop opponent fuel cm.2.1 cm.2.2 cells' 'O' history')
          (fun r => .finished r history')
      else
        let opp := opponent cells g
        opp.1.elim .broke (fun mv =>
          let cells' := (make_move cells mv 'O').2
          (winner cells').elim
            (play_loop opponent fuel m opp.2 cells' 'X' history)
            (fun r => .finished r history))

/-- `play_game_once(menace, opponent)` from `train.py`: start from the empty
board with MENACE ('X') to move.  Nine cells admit at most nine opponent
moves, so fuel 20 covers every iteration the Python loop can perform. -/
def play_game_once (m : MENACE) (opponent : List Char → RNG → Option Nat × RNG)
    (g : RNG) : GameOutcome :=
  play_loop opponent 20 m g (List.replicate 9 EMPTY) 'X' []

/-- The opponent contract from the spec: return a legal (empty-cell) move
index whenever one exists and `none` otherwise. -/
def OpponentOK (opponent : List Char → RNG → Option Nat × RNG) : Prop :=
  ∀ cells g,
    (∀ mv, (opponent cells g).1 = some mv → mv < 9 ∧ cells.getD mv EMPTY = EMPTY) ∧
    ((opponent cells g).1 = none → ∀ i, i < 9 → cells.getD i EMPTY ≠ EMPTY)

/-- A concrete deterministic policy satisfying the opponent contract:
play the lowest-index empty cell. -/
def firstEmptyOpponent (cells : List Char) (g : RNG) : Option Nat × RNG :=
  ((List.range 9).find? (fun i => cells.getD i EMPTY == EMPTY), g)

/-- Feed a sequence of boards to `choose_move`, threading agent and stream,
and collect the returned (move, log entry) pairs. -/
def runChooseMoves : MENACE → RNG → List (List Char) → List (Nat × (List Char × Nat))
  | _, _, [] => []
  | m, g, b :: bs =>
      let cm := m.choose_move b g
      cm.1 :: runChooseMoves cm.2.1 cm.2.2 bs

/-! ## Order properties of the serialized-board comparison -/

theorem char_eq_of_toNat_eq {a b : Char} (h : a.toNat = b.toNat) : a = b :=
  Char.eq_of_val_eq (UInt32.toNat.inj h)

theorem strLt_irrefl (a : List Char) : strLt a a = false := by
  induction a with
  | nil => rfl
  | cons x xs ih => simp [strLt, ih]

theorem strLt_trans {a b c : List Char} (h1 : strLt a b = true) (h2 : strLt b c = true) :
    strLt a c = true := by
  induction a generalizing b c with
  | nil =>
    cases b with
    | nil => simp [strLt] at h1
    | cons y ys =>
      cases c with
      | nil => simp [strLt] at h2
      | cons z zs => rfl
  | cons x xs ih =>
    cases b with
    | nil => simp [strLt] at h1
    | cons y ys =>
      cases c with
      | nil => simp [strLt] at h2
      | cons z zs =>
        simp only [strLt] at h1 h2 ⊢
        by_cases hxz : x.toNat < z.toNat
        · rw [if_pos hxz]
        · by_cases hxy : x.toNat < y.toNat
          · by_cases hyz : y.toNat < z.toNat
            · omega
            · rw [if_neg hyz] at h2
              by_cases hzy : z.toNat < y.toNat
              · rw [if_pos hzy] at h2; exact absurd h2 (by simp)
              · omega
          · rw [if_neg hxy] at h1
            by_cases hyx : y.toNat < x.toNat
            · rw [if_pos hyx] at h1; exact absurd h1 (by simp)
            · rw [if_neg hyx] at h1
              by_cases hyz : y.toNat < z.toNat
              · omega
              · rw [if_neg hyz] at h2
                by_cases hzy : z.toNat < y.toNat
                · rw [if_pos hzy] at h2; exact absurd h2 (by simp)
                · rw [if_neg hzy] at h2
                  rw [if_neg (by omega), if_neg (by omega)]
                  exact ih h1 h2

theorem strLt_eq_of_not_lt {a b : List Char} (h1 : strLt a b = false)
    (h2 : strLt b a = false) : a = b := by
  induction a generalizing b with
  | nil =>
    cases b with
    | nil => rfl
    | cons y ys => simp [strLt] at h1
  | cons x xs ih =>
    cases b with
    | nil => simp [strLt] at h2
    | cons y ys =>
      simp only [strLt] at h1 h2
      by_cases hxy : x.toNat < y.toNat
      · rw [if_pos hxy] at h1; exact absurd h1 (by simp)
      · rw [if_neg hxy] at h1
        by_cases hyx : y.toNat < x.toNat
        · rw [if_pos hyx] at h2; exact absurd h2 (by simp)
        · rw [if_neg hyx] at h1
          rw [if_neg hyx, if_neg hxy] at h2
          have hx : x = y := char_eq_of_toNat_eq (by omega)
          rw [hx, ih h1 h2]

theorem strLt_asymm {a b : List Char} (h : strLt a b = true) : strLt b a = false := by
  cases hv : strLt b a with
  | false => rfl
  | true =>
    have h1 := strLt_trans h hv
    rw [strLt_irrefl] at h1
    exact Bool.noConfusion h1

/-! ## The minimum scan inside `canonicalize` -/

theorem minScan_place (rest : List (List Char)) :
    ∀ best bestVal i,
      minScan best bestVal i rest = (best, bestVal) ∨
      ∃ k, k < rest.length ∧ minScan best bestVal i rest = (i + k, rest.getD k []) := by
  induction rest with
  | nil => intro best bestVal i; exact Or.inl rfl
  | cons s rest ih =>
    intro best bestVal i
    cases h : strLt s bestVal with
    | true =>
      simp only [minScan, h, cond_true]
      rcases ih i s (i + 1) with h0 | ⟨k, hk, heq⟩
      · refine Or.inr ⟨0, by simp, ?_⟩
        rw [h0, Prod.mk.injEq]
        exact ⟨by omega, rfl⟩
      · refine Or.inr ⟨k + 1, by simp only [List.length_cons]; omega, ?_⟩
        rw [heq, Prod.mk.injEq]
        exact ⟨by omega, rfl⟩
    | false =>
      simp only [minScan, h, cond_false]
      rcases ih best bestVal (i + 1) with h0 | ⟨k, hk, heq⟩
      · exact Or.inl h0
      · refine Or.inr ⟨k + 1, by simp only [List.length_cons]; omega, ?_⟩
        rw [heq, Prod.mk.injEq]
        exact ⟨by omega, rfl⟩

theorem minScan_min (rest : List (List Char)) :
    ∀ best bestVal i x, (x = bestVal ∨ x ∈ rest) →
      strLt x (minScan best bestVal i rest).2 = false := by
  induction rest with
  | nil =>
    intro best bestVal i x hx
    rcases hx with hx | hx
    · subst hx; exact strLt_irrefl x
    · simp at hx
  | cons s rest ih =>
    intro best bestVal i x hx
    cases h : strLt s bestVal with
    | true =>
      simp only [minScan, h, cond_true]
      rcases hx with hx | hx
      · subst hx
        have hs : strLt s (minScan i s (i + 1) rest).2 = false :=
          ih i s (i + 1) s (Or.inl rfl)
        cases hv : strLt x (minScan i s (i + 1) rest).2 with
        | false => rfl
        | true =>
          have h2 := strLt_trans h hv
          rw [h2] at hs
          exact Bool.noConfusion hs
      · rcases List.mem_cons.mp hx with hx | hx
        · subst hx; exact ih i x (i + 1) x (Or.inl rfl)
        · exact ih i s (i + 1) x (Or.inr hx)
    | false =>
      simp only [minScan, h, cond_false]
      rcases hx with hx | hx
      · subst hx; exact ih best x (i + 1) x (Or.inl rfl)
      · rcases List.mem_cons.mp hx with hx | hx
        · subst hx
          have hb : strLt bestVal (minScan best bestVal (i + 1) rest).2 = false :=
            ih best bestVal (i + 1) bestVal (Or.inl rfl)
          cases hv : strLt x (minScan best bestVal (i + 1) rest).2 with
          | false => rfl
          | true =>
            cases hsb : strLt bestVal x with
            | true =>
              have h2 := strLt_trans hsb hv
              rw [h2] at hb
              exact Bool.noConfusion hb
            | false =>
              have hxb : x = bestVal := strLt_eq_of_not_lt h hsb
              rw [hxb] at hv
              rw [hv] at hb
              exact Bool.noConfusion hb
        · exact ih best bestVal (i + 1) x (Or.inr hx)

theorem minScan_val_foldl (rest : List (List Char)) :
    ∀ best bestVal i,
      (minScan best bestVal i rest).2 =
        rest.foldl (fun a b => if strLt b a then b else a) bestVal := by
  induction rest with
  | nil => intro best bestVal i; rfl
  | cons s rest ih =>
    intro best bestVal i
    cases h : strLt s bestVal with
    | true =>
      simp only [minScan, h, cond_true, List.foldl_cons, if_pos h]
      exact ih i s (i + 1)
    | false =>
      have h' : ¬ (strLt s bestVal = true) := by rw [h]; exact Bool.noConfusion
      simp only [minScan, h, cond_false, List.foldl_cons, if_neg h']
      exact ih best bestVal (i + 1)

theorem minScan_first (rest : List (List Char)) :
    ∀ best bestVal i,
      ((minScan best bestVal i rest).2 = bestVal → (minScan best bestVal i rest).1 = best) ∧
      ((minScan best bestVal i rest).2 ≠ bestVal →
        (minScan best bestVal i rest).1 =
          i + rest.findIdx (fun s => s == (minScan best bestVal i rest).2)) := by
  induction rest with
  | nil =>
    intro best bestVal i
    exact ⟨fun _ => rfl, fun h => absurd rfl h⟩
  | cons s rest ih =>
    intro best bestVal i
    cases h : strLt s bestVal with
    | true =>
      simp only [minScan, h, cond_true]
      have hs : strLt s (minScan i s (i + 1) rest).2 = false :=
        minScan_min rest i s (i + 1) s (Or.inl rfl)
      have hne : (minScan i s (i + 1) rest).2 ≠ bestVal := by
        intro heq
        rw [heq] at hs
        rw [h] at hs
        exact Bool.noConfusion hs
      refine ⟨fun heq => absurd heq hne, fun _ => ?_⟩
      by_cases hsv : s = (minScan i s (i + 1) rest).2
      · have h0 : (minScan i s (i + 1) rest).1 = i := (ih i s (i + 1)).1 hsv.symm
        rw [h0, List.findIdx_cons]
        have : (s == (minScan i s (i + 1) rest).2) = true := beq_iff_eq.mpr hsv
        rw [this, cond_true]
        omega
      · have h1 : (minScan i s (i + 1) rest).1 =
            (i + 1) + rest.findIdx (fun x => x == (minScan i s (i + 1) rest).2) :=
          (ih i s (i + 1)).2 (fun heq => hsv heq.symm)
        rw [h1, List.findIdx_cons]
        have : (s == (minScan i s (i + 1) rest).2) = false := by
          rw [beq_eq_false_iff_ne]
          exact hsv
        rw [this, cond_false]
        omega
    | false =>
      simp only [minScan, h, cond_false]
      refine ⟨(ih best bestVal (i + 1)).1, fun hne => ?_⟩
      have hb : strLt bestVal (minScan best bestVal (i + 1) rest).2 = false :=
        minScan_min rest best bestVal (i + 1) bestVal (Or.inl rfl)
      have hsv : s ≠ (minScan best bestVal (i + 1) rest).2 := by
        intro heq
        cases hsb : strLt bestVal s with
        | true =>
          rw [heq] at hsb
          rw [hsb] at hb
          exact Bool.noConfusion hb
        | false =>
          have hsb' : s = bestVal := strLt_eq_of_not_lt h hsb
          exact hne (heq ▸ hsb')
      have h1 : (minScan best bestVal (i + 1) rest).1 =
          (i + 1) + rest.findIdx (fun x => x == (minScan best bestVal (i + 1) rest).2) :=
        (ih best bestVal (i + 1)).2 hne
      rw [h1, List.findIdx_cons]
      have : (s == (minScan best bestVal (i + 1) rest).2) = false := by
        rw [beq_eq_false_iff_ne]
        exact hsv
      rw [this, cond_false]
      omega

theorem scan_getD (s : List Char) (rest : List (List Char)) :
    (s :: rest).getD (minScan 0 s 1 rest).1 [] = (minScan 0 s 1 rest).2 := by
  rcases minScan_place rest 0 s 1 with h0 | ⟨k, hk, heq⟩
  · rw [h0]
    rfl
  · rw [heq]
    show (s :: rest).getD (1 + k) [] = _
    rw [Nat.add_comm]
    exact (List.getD_cons_succ).trans rfl

theorem scan_mem (s : List Char) (rest : List (List Char)) :
    (minScan 0 s 1 rest).2 ∈ s :: rest := by
  rcases minScan_place rest 0 s 1 with h0 | ⟨k, hk, heq⟩
  · rw [h0]; exact List.mem_cons_self s rest
  · rw [heq]
    refine List.mem_cons_of_mem s ?_
    rw [List.getD_eq_getElem?_getD, List.getElem?_eq_getElem hk]
    exact List.getElem_mem hk

theorem scan_le (s : List Char) (rest : List (List Char)) :
    ∀ x ∈ s :: rest, strLt x (minScan 0 s 1 rest).2 = false := by
  intro x hx
  rcases List.mem_cons.mp hx with hx | hx
  · exact minScan_min rest 0 s 1 x (Or.inl hx)
  · exact minScan_min rest 0 s 1 x (Or.inr hx)

/-- The image list `TRANSFORMS.map (permute b ·)` in head-tail form. -/
theorem images_cons (b : List Char) :
    TRANSFORMS.map (fun p => permute b p) =
      permute b [0,1,2,3,4,5,6,7,8] ::
        [permute b [6,3,0,7,4,1,8,5,2], permute b [8,7,6,5,4,3,2,1,0],
         permute b [2,5,8,1,4,7,0,3,6], permute b [2,1,0,5,4,3,8,7,6],
         permute b [6,7,8,3,4,5,0,1,2], permute b [0,3,6,1,4,7,2,5,8],
         permute b [8,5,2,7,4,1,6,3,0]] := rfl

theorem canonicalize_unfolded (b : List Char) (s : List Char) (rest : List (List Char))
    (hB : TRANSFORMS.map (fun p => permute b p) = s :: rest) :
    canonicalize b = ((s :: rest).getD (minScan 0 s 1 rest).1 [],
      TRANSFORMS.getD (minScan 0 s 1 rest).1 []) := by
  simp only [canonicalize, hB]
  rfl

/-- The canonical key is one of the 8 serialized images and is minimal among
them under the lexicographic order. -/
theorem canonicalize_key_spec (b : List Char) :
    (canonicalize b).1 ∈ TRANSFORMS.map (fun p => permute b p) ∧
    ∀ x ∈ TRANSFORMS.map (fun p => permute b p), strLt x (canonicalize b).1 = false := by
  rw [canonicalize_unfolded b _ _ (images_cons b), images_cons b]
  rw [scan_getD]
  exact ⟨scan_mem _ _, scan_le _ _⟩

/-- Composing two index permutations: permuting an already-permuted board is
permuting the original board by the composed permutation. -/
theorem permute_permute (b : List Char) (t p : List Nat) (ht : 9 ≤ t.length)
    (hp : ∀ j ∈ p, j < 9) :
    permute (permute b t) p = permute b (permuteN t p) := by
  unfold permute permuteN
  rw [List.map_map]
  apply List.map_congr_left
  intro j hj
  have hjt : j < t.length := lt_of_lt_of_le (hp j hj) ht
  show (List.map (fun i => b.getD i EMPTY) t).getD j EMPTY = b.getD (t.getD j 0) EMPTY
  rw [List.getD_eq_getElem?_getD, List.getElem?_map, List.getElem?_eq_getElem hjt]
  have hjd : t.getD j 0 = t[j] := by
    rw [List.getD_eq_getElem?_getD, List.getElem?_eq_getElem hjt]
    rfl
  rw [hjd, List.getD_eq_getElem?_getD]
  simp

/-- Every transform has 9 entries, all indices below 9. -/
theorem transforms_wf : ∀ t ∈ TRANSFORMS, (∀ j ∈ t, j < 9) ∧ t.length = 9 := by decide

/-- The fixed transform list is closed under composition with any of its
members: composing each of the 8 transforms with a fixed one permutes the list. -/
theorem transforms_closed (t : List Nat) (ht : t ∈ TRANSFORMS) :
    (TRANSFORMS.map (fun p => permuteN t p)).Perm TRANSFORMS := by
  fin_cases ht <;> decide

theorem lexSmallest_cons_eq_scan (s : List Char) (rest : List (List Char)) :
    lexSmallest (s :: rest) = (minScan 0 s 1 rest).2 := by
  show rest.foldl (fun a b => if strLt b a then b else a) s = _
  rw [minScan_val_foldl]

theorem scan_first_idx (s : List Char) (rest : List (List Char)) :
    (minScan 0 s 1 rest).1 =
      (s :: rest).findIdx (fun x => x == (minScan 0 s 1 rest).2) := by
  have hfirst := minScan_first rest 0 s 1
  by_cases hs : (minScan 0 s 1 rest).2 = s
  · rw [List.findIdx_cons]
    have hbeq : (s == (minScan 0 s 1 rest).2) = true := beq_iff_eq.mpr hs.symm
    rw [hbeq, cond_true, hfirst.1 hs]
  · rw [List.findIdx_cons]
    have hbeq : (s == (minScan 0 s 1 rest).2) = false :=
      beq_eq_false_iff_ne.mpr (fun h => hs h.symm)
    rw [hbeq, cond_false, hfirst.2 hs]
    omega

/-- C5: `canonicalize` agrees everywhere with the spec's description: the
lexicographically smallest serialized image, tie-broken by the first transform
in fixed list order achieving it. -/
theorem canonicalize_eq_spec (b : List Char) : canonicalize b = canonicalize_spec b := by
  rw [canonicalize_unfolded b _ _ (images_cons b)]
  simp only [canonicalize_spec]
  rw [images_cons b, lexSmallest_cons_eq_scan, ← scan_first_idx, scan_getD]

/-- C2: applying any of the 8 symmetry transforms to a board leaves the
canonical key unchanged. -/
theorem canonicalize_symmetry_invariant (b : List Char) (t : List Nat)
    (ht : t ∈ TRANSFORMS) :
    (canonicalize (permute b t)).1 = (canonicalize b).1 := by
  have hwf := transforms_wf
  have himg : TRANSFORMS.map (fun p => permute (permute b t) p)
      = (TRANSFORMS.map (fun p => permuteN t p)).map (fun q => permute b q) := by
    rw [List.map_map]
    apply List.map_congr_left
    intro p hp
    exact permute_permute b t p (le_of_eq (hwf t ht).2.symm) (hwf p hp).1
  have hperm : (TRANSFORMS.map (fun p => permute (permute b t) p)).Perm
      (TRANSFORMS.map (fun p => permute b p)) := by
    rw [himg]
    exact (transforms_closed t ht).map _
  obtain ⟨hmem1, hmin1⟩ := canonicalize_key_spec (permute b t)
  obtain ⟨hmem2, hmin2⟩ := canonicalize_key_spec b
  exact strLt_eq_of_not_lt (hmin2 _ (hperm.mem_iff.mp hmem1))
    (hmin1 _ (hperm.mem_iff.mpr hmem2))

/-- Witness for C2 at a concrete board and the rotate-90 transform. -/
theorem canonicalize_symmetry_invariant_witness :
    [6,3,0,7,4,1,8,5,2] ∈ TRANSFORMS ∧
    (canonicalize (permute ['X',' ',' ',' ',' ',' ',' ',' ',' '] [6,3,0,7,4,1,8,5,2])).1 =
      (canonicalize ['X',' ',' ',' ',' ',' ',' ',' ',' ']).1 :=
  ⟨by decide, canonicalize_symmetry_invariant _ _ (by decide)⟩

/-! ## Individual operations -/

/-- C4: for each of the 8 transforms, `invert_perm` is a two-sided inverse on
the indices 0..8. -/
theorem invert_perm_is_inverse :
    ∀ t ∈ TRANSFORMS, ∀ i, i < 9 →
      (invert_perm t).getD (t.getD i 0) 0 = i ∧
      t.getD ((invert_perm t).getD i 0) 0 = i := by decide

/-- Witness for C4 at the rotate-90 transform and index 0. -/
theorem invert_perm_is_inverse_witness :
    [6,3,0,7,4,1,8,5,2] ∈ TRANSFORMS ∧ 0 < 9 ∧
      ((invert_perm [6,3,0,7,4,1,8,5,2]).getD ([6,3,0,7,4,1,8,5,2].getD 0 0) 0 = 0 ∧
       [6,3,0,7,4,1,8,5,2].getD ((invert_perm [6,3,0,7,4,1,8,5,2]).getD 0 0) 0 = 0) :=
  ⟨by decide, by decide, invert_perm_is_inverse _ (by decide) 0 (by decide)⟩

/-- C8: `winner` on the three example boards of the spec: a completed row wins,
a full mixed board draws, and the empty board has no result yet. -/
theorem winner_examples :
    winner ['X','X','X',' ',' ',' ',' ',' ',' '] = some 'X' ∧
    winner ['X','O','X','X','O','O','O','X','X'] = some 'D' ∧
    winner (List.replicate 9 EMPTY) = none := by
  refine ⟨rfl, rfl, rfl⟩

/-- C9: a fresh agent's matchbox for the empty board has exactly the nine
entries 0..8, each holding the default 4 beads. -/
theorem inspect_box_fresh (g : RNG) :
    (((MENACE.init g).1.inspect_box (List.replicate 9 EMPTY)).1).2 =
      [(0,4),(1,4),(2,4),(3,4),(4,4),(5,4),(6,4),(7,4),(8,4)] := rfl

/-- C10: construction reseeds the global random stream with the constant 1,
so two freshly constructed agents fed the same board sequence return the same
moves and log entries at every position, whatever stream states preceded them. -/
theorem menace_fresh_deterministic (g1 g2 : RNG) (boards : List (List Char)) :
    runChooseMoves (MENACE.init g1).1 (MENACE.init g1).2 boards =
      runChooseMoves (MENACE.init g2).1 (MENACE.init g2).2 boards := rfl

/-- C7: `make_move` leaves an occupied cell's board unchanged, and on an empty cell
succeeds, writes the symbol there, and leaves every other cell unchanged. -/
theorem make_move_spec (cells : List Char) (i : Nat) (sym : Char)
    (hlen : cells.length = 9) (hi : i < 9) :
    (cells.getD i EMPTY ≠ EMPTY → make_move cells i sym = (false, cells)) ∧
    (cells.getD i EMPTY = EMPTY →
      (make_move cells i sym).1 = true ∧
      (make_move cells i sym).2.getD i EMPTY = sym ∧
      ∀ j, j ≠ i → (make_move cells i sym).2.getD j EMPTY = cells.getD j EMPTY) := by
  constructor
  · intro h
    rw [List.getD_eq_getElem?_getD] at h
    simp [make_move, h]
  · intro h
    have h' := h
    rw [List.getD_eq_getElem?_getD] at h'
    have hilen : i < cells.length := by omega
    have hmm : make_move cells i sym = (true, cells.set i sym) := by
      simp [make_move, h']
    refine ⟨by rw [hmm], ?_, ?_⟩
    · rw [hmm, List.getD_eq_getElem?_getD, List.getElem?_set_self hilen]
      rfl
    · intro j hj
      rw [hmm, List.getD_eq_getElem?_getD, List.getElem?_set_ne (fun he => hj he.symm),
        ← List.getD_eq_getElem?_getD]

/-- Witness for C7 on a board with cell 0 occupied, applied at cell 1. -/
theorem make_move_spec_witness :
    (['X',' ',' ',' ',' ',' ',' ',' ',' '] : List Char).length = 9 ∧ 1 < 9 ∧
    ((['X',' ',' ',' ',' ',' ',' ',' ',' '] : List Char).getD 1 EMPTY ≠ EMPTY →
        make_move ['X',' ',' ',' ',' ',' ',' ',' ',' '] 1 'O' =
          (false, ['X',' ',' ',' ',' ',' ',' ',' ',' '])) ∧
    ((['X',' ',' ',' ',' ',' ',' ',' ',' '] : List Char).getD 1 EMPTY = EMPTY →
      (make_move ['X',' ',' ',' ',' ',' ',' ',' ',' '] 1 'O').1 = true ∧
      (make_move ['X',' ',' ',' ',' ',' ',' ',' ',' '] 1 'O').2.getD 1 EMPTY = 'O' ∧
      ∀ j, j ≠ 1 →
        (make_move ['X',' ',' ',' ',' ',' ',' ',' ',' '] 1 'O').2.getD j EMPTY =
          (['X',' ',' ',' ',' ',' ',' ',' ',' '] : List Char).getD j EMPTY) :=
  ⟨rfl, by decide,
    (make_move_spec ['X',' ',' ',' ',' ',' ',' ',' ',' '] 1 'O' rfl (by decide)).1,
    (make_move_spec ['X',' ',' ',' ',' ',' ',' ',' ',' '] 1 'O' rfl (by decide)).2⟩

/-- The weighted pool of the matchbox created for the board
`['X','X',' ','X','X','X','X','X','X']` is four copies of canonical move 0, so
any draw from it yields 0. -/
theorem zero_pool_getD (n : Nat) : ([0,0,0,0] : List Nat).getD n 0 = 0 := by
  match n with
  | 0 => rfl
  | 1 => rfl
  | 2 => rfl
  | 3 => rfl
  | n + 4 => rfl

/-- C1 (refuted — code bug): on the board whose single empty cell is index 2,
canonicalization records the rotate-270 permutation, and `choose_move`
translates the drawn canonical move 0 through `invert_perm` to index 6 — an
occupied cell — for every state of the random stream.  The translation through
the *recorded permutation itself* (index 2) would have been the empty cell. -/
theorem choose_move_returns_occupied (g : RNG) :
    (((MENACE.init (seedRng 0)).1.choose_move
        ['X','X',' ','X','X','X','X','X','X'] g).1).1 = 6 ∧
    (['X','X',' ','X','X','X','X','X','X'] : List Char).getD 6 EMPTY = 'X' ∧
    ((List.range 9).filter
      (fun i => (['X','X',' ','X','X','X','X','X','X'] : List Char).getD i EMPTY ==
        EMPTY)) = [2] := by
  refine ⟨?_, by decide, by decide⟩
  have heb : (MENACE.init (seedRng 0)).1.ensure_box ['X','X',' ','X','X','X','X','X','X'] =
      ([' ','X','X','X','X','X','X','X','X'], [2,5,8,1,4,7,0,3,6], [(0, 4)],
        { matchboxes := [([' ','X','X','X','X','X','X','X','X'], [(0, 4)])],
          init_beads := 4, reward_win := 3, reward_draw := 1, reward_loss := -1 }) := rfl
  have hpool : weightedPool [(0, (4 : Int))] = [0,0,0,0] := rfl
  simp only [MENACE.choose_move, heb, hpool, randomChoice]
  rw [zero_pool_getD]
  rfl

/-! ## The bead-floor invariant -/

theorem cSet_mem {c : Counter} {k : Nat} {v : Int} {kv : Nat × Int}
    (h : kv ∈ cSet c k v) : kv ∈ c ∨ kv = (k, v) := by
  unfold cSet at h
  by_cases hf : (c.find? (fun p => p.1 == k)).isSome
  · rw [if_pos hf] at h
    rcases List.mem_map.mp h with ⟨p, hp, heq⟩
    by_cases hpk : (p.1 == k) = true
    · right
      rw [← heq, if_pos hpk]
    · left
      rw [← heq, if_neg hpk]
      exact hp
  · rw [if_neg hf] at h
    rcases List.mem_append.mp h with h | h
    · exact Or.inl h
    · right
      simpa using h

theorem boxSet_mem {mbs : List (List Char × Counter)} {k : List Char} {c : Counter}
    {box : List Char × Counter} (h : box ∈ boxSet mbs k c) :
    box ∈ mbs ∨ box = (k, c) := by
  unfold boxSet at h
  rcases List.mem_map.mp h with ⟨p, hp, heq⟩
  by_cases hpk : (p.1 == k) = true
  · right
    rw [← heq, if_pos hpk]
  · left
    rw [← heq, if_neg hpk]
    exact hp

theorem boxFind_some {mbs : List (List Char × Counter)} {k : List Char} {c : Counter}
    (h : boxFind mbs k = some c) : ∃ p ∈ mbs, p.2 = c := by
  unfold boxFind at h
  cases hf : mbs.find? (fun p => p.1 == k) with
  | none => rw [hf] at h; exact absurd h (by simp)
  | some p =>
      rw [hf] at h
      refine ⟨p, List.mem_of_find?_eq_some hf, ?_⟩
      injection h

/-- Matchbox creation preserves the bead floor: a fresh box holds
`init_beads` everywhere. -/
theorem beadsOK_ensure (m : MENACE) (board : List Char) (hinit : 1 ≤ m.init_beads)
    (hok : beadsOK m) : beadsOK (m.ensure_box board).2.2.2 := by
  unfold MENACE.ensure_box
  cases hf : boxFind m.matchboxes (canonicalize board).1 with
  | some beads =>
      simp only [hf]
      exact hok
  | none =>
      simp only [hf]
      intro box hbox kv hkv
      rcases List.mem_append.mp hbox with hb | hb
      · exact hok box hb kv hkv
      · have hb' : box = ((canonicalize board).1,
            (((canonicalize board).1.enum.filter (fun iv => iv.2 == EMPTY)).map
              (fun iv => iv.1)).map (fun mv => (mv, m.init_beads))) := by simpa using hb
        rw [hb'] at hkv
        rcases List.mem_map.mp hkv with ⟨mv, _, heq⟩
        rw [← heq]
        exact hinit

theorem beadsOK_foldl (delta : Int) :
    ∀ (history : List (List Char × Nat)) (m : MENACE), beadsOK m →
      beadsOK (history.foldl (fun m hist =>
        match boxFind m.matchboxes hist.1 with
        | none => m
        | some beads =>
            let v0 := cGet beads hist.2 + delta
            let v := if v0 < 1 then 1 else v0
            { m with matchboxes := boxSet m.matchboxes hist.1 (cSet beads hist.2 v) }) m) := by
  intro history
  induction history with
  | nil =>
    intro m hok
    simpa using hok
  | cons e hs ih =>
    intro m hok
    rw [List.foldl_cons]
    apply ih
    cases hf : boxFind m.matchboxes e.1 with
    | none =>
        simp only [hf]
        exact hok
    | some beads =>
        simp only [hf]
        intro box hbox kv hkv
        rcases boxSet_mem hbox with hb | hb
        · exact hok box hb kv hkv
        · rw [hb] at hkv
          rcases cSet_mem hkv with hc | hc
          · obtain ⟨p, hp, hpc⟩ := boxFind_some hf
            exact hok p hp kv (by rw [hpc]; exact hc)
          · rw [hc]
            show (1 : Int) ≤ (if cGet beads e.2 + delta < 1 then 1 else cGet beads e.2 + delta)
            by_cases hv : cGet beads e.2 + delta < 1
            · rw [if_pos hv]
            · rw [if_neg hv]
              omega

/-- C3: with the default initial bead count 4, the ≥ 1 floor on every stored
counter holds for a fresh agent and is preserved by `choose_move`, by `update`
for any history and outcome, and by `inspect_box`. -/
theorem beads_floor_invariant (m : MENACE) (board : List Char) (g g' : RNG)
    (history : List (List Char × Nat)) (result : Char)
    (hinit : m.init_beads = 4) (hok : beadsOK m) :
    beadsOK (MENACE.init g').1 ∧
    beadsOK ((m.choose_move board g).2.1) ∧
    beadsOK (m.update history result) ∧
    beadsOK ((m.inspect_box board).2) := by
  have hinit1 : (1 : Int) ≤ m.init_beads := by rw [hinit]; norm_num
  refine ⟨?_, ?_, ?_, ?_⟩
  · intro box hbox kv hkv
    simp [MENACE.init] at hbox
  · exact beadsOK_ensure m board hinit1 hok
  · exact beadsOK_foldl _ history m hok
  · exact beadsOK_ensure m board hinit1 hok

/-- Witness for C3: a fresh agent, the empty board, an arbitrary history entry
and a loss outcome. -/
theorem beads_floor_invariant_witness :
    ((MENACE.init (seedRng 0)).1.init_beads = 4) ∧
    beadsOK (MENACE.init (seedRng 0)).1 ∧
    (beadsOK (MENACE.init (seedRng 5)).1 ∧
     beadsOK (((MENACE.init (seedRng 0)).1.choose_move (List.replicate 9 EMPTY) (seedRng 1)).2.1) ∧
     beadsOK ((MENACE.init (seedRng 0)).1.update [(List.replicate 9 EMPTY, 0)] 'O') ∧
     beadsOK (((MENACE.init (seedRng 0)).1.inspect_box (List.replicate 9 EMPTY)).2)) :=
  ⟨rfl, by intro box hbox kv hkv; simp [MENACE.init] at hbox,
    beads_floor_invariant _ (List.replicate 9 EMPTY) (seedRng 1) (seedRng 5)
      [(List.replicate 9 EMPTY, 0)] 'O' rfl
      (by intro box hbox kv hkv; simp [MENACE.init] at hbox)⟩

/-! ## Termination and result shape of the game loop -/

theorem winner_none_contains {cells : List Char} (h : winner cells = none) :
    EMPTY ∈ cells := by
  unfold winner at h
  cases hf : LINES.find? (fun l =>
      cells.getD l.1 EMPTY != EMPTY &&
      cells.getD l.1 EMPTY == cells.getD l.2.1 EMPTY &&
      cells.getD l.2.1 EMPTY == cells.getD l.2.2 EMPTY) with
  | some l => rw [hf] at h; exact absurd h (by simp)
  | none =>
      rw [hf] at h
      by_cases hc : cells.contains EMPTY = true
      · exact List.mem_of_elem_eq_true hc
      · rw [if_neg hc] at h
        exact absurd h (by simp)

theorem getD_mem_of_ne_default {cells : List Char} {i : Nat} {c : Char}
    (h : cells.getD i EMPTY = c) (hne : c ≠ EMPTY) : c ∈ cells := by
  by_cases hi : i < cells.length
  · rw [List.getD_eq_getElem?_getD, List.getElem?_eq_getElem hi] at h
    rw [← h]
    exact List.getElem_mem hi
  · rw [List.getD_eq_getElem?_getD, List.getElem?_eq_none (by omega)] at h
    exact absurd h.symm hne

theorem winner_some_shape {cells : List Char} {r : Char} (h : winner cells = some r)
    (hok : cellsOK cells) : r = 'X' ∨ r = 'O' ∨ r = 'D' := by
  unfold winner at h
  cases hf : LINES.find? (fun l =>
      cells.getD l.1 EMPTY != EMPTY &&
      cells.getD l.1 EMPTY == cells.getD l.2.1 EMPTY &&
      cells.getD l.2.1 EMPTY == cells.getD l.2.2 EMPTY) with
  | some l =>
      rw [hf] at h
      have hr : cells.getD l.1 EMPTY = r := by injection h
      have hpred := List.find?_some hf
      have hne : r ≠ EMPTY := by
        intro he
        rw [hr, he] at hpred
        simp at hpred
      have hmem : r ∈ cells := getD_mem_of_ne_default hr hne
      rcases hok r hmem with h' | h' | h'
      · exact Or.inl h'
      · exact Or.inr (Or.inl h')
      · exact absurd h' hne
  | none =>
      rw [hf] at h
      by_cases hc : cells.contains EMPTY = true
      · rw [if_pos hc] at h
        exact absurd h (by simp)
      · rw [if_neg hc] at h
        have : r = 'D' := by injection h with h'; exact h'.symm
        exact Or.inr (Or.inr this)

theorem make_move_length (cells : List Char) (i : Nat) (sym : Char) :
    (make_move cells i sym).2.length = cells.length := by
  unfold make_move
  by_cases hb : (cells.getD i EMPTY == EMPTY) = true
  · rw [if_pos hb]
    exact List.length_set cells i sym
  · rw [if_neg hb]

theorem make_move_cellsOK {cells : List Char} {i : Nat} {sym : Char}
    (hsym : sym = 'X' ∨ sym = 'O') (hok : cellsOK cells) :
    cellsOK (make_move cells i sym).2 := by
  unfold make_move
  by_cases hb : (cells.getD i EMPTY == EMPTY) = true
  · rw [if_pos hb]
    intro c hc
    rcases List.mem_or_eq_of_mem_set hc with hc | hc
    · exact hok c hc
    · rcases hsym with hs | hs
      · exact Or.inl (hc.trans hs)
      · exact Or.inr (Or.inl (hc.trans hs))
  · rw [if_neg hb]
    exact hok

theorem countP_set_of_empty {cells : List Char} {n : Nat} {c : Char}
    (hn : n < cells.length) (he : cells.getD n EMPTY = EMPTY) (hc : c ≠ EMPTY) :
    (cells.set n c).countP (fun x => x == EMPTY) + 1 =
      cells.countP (fun x => x == EMPTY) := by
  induction cells generalizing n with
  | nil => simp at hn
  | cons a l ih =>
    cases n with
    | zero =>
        have ha : a = EMPTY := he
        have hcb : (c == EMPTY) = false := beq_eq_false_iff_ne.mpr hc
        simp [List.countP_cons, ha, hcb]
    | succ n =>
        have hn' : n < l.length := by simpa using hn
        have he' : l.getD n EMPTY = EMPTY := he
        have := ih hn' he'
        simp only [List.set_cons_succ, List.countP_cons]
        omega

theorem make_move_eq_pos {cells : List Char} {i : Nat} {sym : Char}
    (he : cells.getD i EMPTY = EMPTY) :
    make_move cells i sym = (true, cells.set i sym) := by
  have h' := he
  rw [List.getD_eq_getElem?_getD] at h'
  simp [make_move, h']

theorem make_move_eq_neg {cells : List Char} {i : Nat} {sym : Char}
    (he : cells.getD i EMPTY ≠ EMPTY) :
    make_move cells i sym = (false, cells) := by
  have h' := he
  rw [List.getD_eq_getElem?_getD] at h'
  simp [make_move, h']

theorem make_move_countP_le (cells : List Char) (i : Nat) (sym : Char)
    (hsym : sym ≠ EMPTY) :
    (make_move cells i sym).2.countP (fun x => x == EMPTY) ≤
      cells.countP (fun x => x == EMPTY) := by
  by_cases he : cells.getD i EMPTY = EMPTY
  · rw [make_move_eq_pos he]
    show (cells.set i sym).countP (fun x => x == EMPTY) ≤ cells.countP (fun x => x == EMPTY)
    by_cases hi : i < cells.length
    · have := countP_set_of_empty hi he hsym
      omega
    · rw [List.set_eq_of_length_le (by omega)]
  · rw [make_move_eq_neg he]

theorem make_move_countP_lt (cells : List Char) (i : Nat) (sym : Char)
    (hsym : sym ≠ EMPTY) (hi : i < cells.length) (he : cells.getD i EMPTY = EMPTY) :
    (make_move cells i sym).2.countP (fun x => x == EMPTY) + 1 =
      cells.countP (fun x => x == EMPTY) := by
  rw [make_move_eq_pos he]
  exact countP_set_of_empty hi he hsym

/-- On a 9-cell board with no winner yet, a contract-abiding opponent returns
some legal move. -/
theorem opponent_must_move {opponent : List Char → RNG → Option Nat × RNG}
    (hopp : OpponentOK opponent) {cells : List Char} (hlen : cells.length = 9)
    (hw : winner cells = none) (g : RNG) :
    ∃ mv, (opponent cells g).1 = some mv ∧ mv < 9 ∧ cells.getD mv EMPTY = EMPTY := by
  have hmem : EMPTY ∈ cells := winner_none_contains hw
  obtain ⟨i, hi, hgi⟩ := List.mem_iff_getElem.mp hmem
  cases ho : (opponent cells g).1 with
  | none =>
      exfalso
      have h9 : i < 9 := by omega
      have : cells.getD i EMPTY = EMPTY := by
        rw [List.getD_eq_getElem?_getD, List.getElem?_eq_getElem hi, hgi]
        rfl
      exact (hopp cells g).2 ho i h9 this
  | some mv =>
      obtain ⟨hmv9, hmve⟩ := (hopp cells g).1 mv ho
      exact ⟨mv, rfl, hmv9, hmve⟩

theorem play_loop_succ_X (opponent : List Char → RNG → Option Nat × RNG)
    (fuel : Nat) (m : MENACE) (g : RNG) (cells : List Char)
    (history : List (List Char × Nat)) :
    play_loop opponent (fuel + 1) m g cells 'X' history =
      (winner (make_move cells (m.choose_move cells g).1.1 'X').2).elim
        (play_loop opponent fuel (m.choose_move cells g).2.1 (m.choose_move cells g).2.2
          (make_move cells (m.choose_move cells g).1.1 'X').2 'O'
          (history ++ [(m.choose_move cells g).1.2]))
        (fun r => .finished r (history ++ [(m.choose_move cells g).1.2])) := rfl

theorem play_loop_succ_O (opponent : List Char → RNG → Option Nat × RNG)
    (fuel : Nat) (m : MENACE) (g : RNG) (cells : List Char)
    (history : List (List Char × Nat)) :
    play_loop opponent (fuel + 1) m g cells 'O' history =
      (opponent cells g).1.elim .broke (fun mv =>
        (winner (make_move cells mv 'O').2).elim
          (play_loop opponent fuel m (opponent cells g).2
            (make_move cells mv 'O').2 'X' history)
          (fun r => .finished r history)) := rfl

theorem play_loop_finishes
    (opponent : List Char → RNG → Option Nat × RNG) (hopp : OpponentOK opponent) :
    ∀ (n : Nat) (m : MENACE) (g : RNG) (cells : List Char)
      (history : List (List Char × Nat)) (fuel : Nat),
      cells.length = 9 → cellsOK cells → winner cells = none →
      cells.countP (fun c => c == EMPTY) ≤ n → 2 * n + 1 ≤ fuel →
      ∃ r h, play_loop opponent fuel m g cells 'X' history = .finished r h ∧
        (r = 'X' ∨ r = 'O' ∨ r = 'D') := by
  intro n
  induction n with
  | zero =>
    intro m g cells history fuel hlen hok hw hcount _
    exfalso
    have : 0 < cells.countP (fun c => c == EMPTY) :=
      List.countP_pos_iff.mpr ⟨EMPTY, winner_none_contains hw, by simp⟩
    omega
  | succ n ih =>
    intro m g cells history fuel hlen hok hw hcount hfuel
    obtain ⟨fuel1, rfl⟩ : ∃ f, fuel = f + 1 := ⟨fuel - 1, by omega⟩
    rw [play_loop_succ_X]
    have hlen' : ((make_move cells (m.choose_move cells g).1.1 'X').2).length = 9 := by
      rw [make_move_length, hlen]
    have hok' : cellsOK (make_move cells (m.choose_move cells g).1.1 'X').2 :=
      make_move_cellsOK (Or.inl rfl) hok
    have hcount' : (make_move cells (m.choose_move cells g).1.1 'X').2.countP
        (fun c => c == EMPTY) ≤ n + 1 :=
      le_trans (make_move_countP_le cells _ 'X' (by decide)) hcount
    cases hw' : winner (make_move cells (m.choose_move cells g).1.1 'X').2 with
    | some r =>
        exact ⟨r, history ++ [(m.choose_move cells g).1.2], rfl, winner_some_shape hw' hok'⟩
    | none =>
        rw [Option.elim_none]
        obtain ⟨fuel2, rfl⟩ : ∃ f, fuel1 = f + 1 := ⟨fuel1 - 1, by omega⟩
        rw [play_loop_succ_O]
        obtain ⟨mv, hmv, hmv9, hmve⟩ := opponent_must_move hopp hlen' hw'
          (m.choose_move cells g).2.2
        rw [hmv, Option.elim_some]
        have hlen'' : ((make_move (make_move cells (m.choose_move cells g).1.1 'X').2
            mv 'O').2).length = 9 := by
          rw [make_move_length, hlen']
        have hok'' : cellsOK (make_move (make_move cells (m.choose_move cells g).1.1 'X').2
            mv 'O').2 :=
          make_move_cellsOK (Or.inr rfl) hok'
        have hdrop : (make_move (make_move cells (m.choose_move cells g).1.1 'X').2
              mv 'O').2.countP (fun c => c == EMPTY) + 1 =
            (make_move cells (m.choose_move cells g).1.1 'X').2.countP
              (fun c => c == EMPTY) :=
          make_move_countP_lt _ mv 'O' (by decide) (by omega) hmve
        cases hw'' : winner (make_move (make_move cells (m.choose_move cells g).1.1 'X').2
            mv 'O').2 with
        | some r =>
            exact ⟨r, history ++ [(m.choose_move cells g).1.2], rfl,
              winner_some_shape hw'' hok''⟩
        | none =>
            rw [Option.elim_none]
            exact ih (m.choose_move cells g).2.1
              (opponent (make_move cells (m.choose_move cells g).1.1 'X').2
                (m.choose_move cells g).2.2).2
              (make_move (make_move cells (m.choose_move cells g).1.1 'X').2 mv 'O').2
              (history ++ [(m.choose_move cells g).1.2]) fuel2 hlen'' hok'' hw''
              (by omega) (by omega)

/-- C6: against any opponent policy satisfying the contract, a full game from
the empty board terminates normally with result 'X', 'O' or 'D'; the loop's
`break`-on-`None` path (which would leave Python's function without a result
pair) is never taken. -/
theorem play_game_once_terminates (m : MENACE)
    (opponent : List Char → RNG → Option Nat × RNG) (g : RNG)
    (hopp : OpponentOK opponent) :
    ∃ r h, play_game_once m opponent g = .finished r h ∧
      (r = 'X' ∨ r = 'O' ∨ r = 'D') := by
  unfold play_game_once
  refine play_loop_finishes opponent hopp 9 m g (List.replicate 9 EMPTY) [] 20
    (by decide) ?_ (by decide) (by decide) (by omega)
  intro c hc
  right; right
  exact (List.mem_replicate.mp hc).2

/-- The lowest-empty-cell policy satisfies the opponent contract. -/
theorem firstEmptyOpponent_ok : OpponentOK firstEmptyOpponent := by
  intro cells g
  constructor
  · intro mv hmv
    have hfind : (List.range 9).find? (fun i => cells.getD i EMPTY == EMPTY) = some mv := hmv
    have hpred := List.find?_some hfind
    have hmem := List.mem_of_find?_eq_some hfind
    exact ⟨List.mem_range.mp hmem, beq_iff_eq.mp hpred⟩
  · intro hnone i hi he
    have hfind : (List.range 9).find? (fun i => cells.getD i EMPTY == EMPTY) = none := hnone
    have := List.find?_eq_none.mp hfind i (List.mem_range.mpr hi)
    rw [he] at this
    simp at this

/-- Witness for C6: a fresh agent against the lowest-empty-cell opponent. -/
theorem play_game_once_terminates_witness :
    ∃ r h, play_game_once (MENACE.init (seedRng 0)).1 firstEmptyOpponent (seedRng 1) =
        .finished r h ∧ (r = 'X' ∨ r = 'O' ∨ r = 'D') :=
  play_game_once_terminates _ _ _ firstEmptyOpponent_ok

end Menace
